import Mathlib

/-!
Verification of the resolution engine in `res.py` (module `Res` below).

The Python program represents constants, variables, function terms and
literals with a single `Predicate` class carrying a `type` tag, clauses with
a `Clause` class, and substitutions with `dict` objects mapping variable
name strings to term name strings.  We embed each of these faithfully:

* `Pred` mirrors `Predicate` (fields `name`, `nameTag`, `negated`, `terms`,
  `type`; the `type` field holds one of the same four tag strings).
* `Clause` mirrors `Clause` (fields `name`, `predicates`).
* `Subst` mirrors a Python `dict[str, str]` as an insertion-ordered
  association list; `sinsert` is `d[k] = v`, `dunion` is `a | b`.

Python exceptions (`TypeError` raised by the broken `Predicate.__copy__`,
`IndexError`, `ValueError` from `str.index`, `RecursionError` from cyclic
chains, and `print("error"); exit()`) are modelled as an explicit error
outcome (`URes.err`, `Except.error`, or `Option.none`), distinct from the
`None` failure sentinel that `unify` returns on a normal mismatch
(`URes.fail`).
-/

namespace Res

def FUNCTION_TYPE : String := "function"
def VARIABLE_TYPE : String := "variable"
def PREDICATE_TYPE : String := "predicate"
def CONSTANT_TYPE : String := "constant"

/-- The Python `Predicate` class: a single node type used for constants,
variables, function terms and literals, distinguished by the `type` tag. -/
inductive Pred : Type where
  | mk (name nameTag : String) (negated : Bool) (terms : List Pred) (type : String)

def Pred.name : Pred → String
  | .mk n _ _ _ _ => n

def Pred.nameTag : Pred → String
  | .mk _ t _ _ _ => t

def Pred.negated : Pred → Bool
  | .mk _ _ b _ _ => b

def Pred.terms : Pred → List Pred
  | .mk _ _ _ ts _ => ts

def Pred.type : Pred → String
  | .mk _ _ _ _ ty => ty

mutual

/-- Decidable structural equality for `Pred` (the nested inductive blocks
automatic derivation). -/
def predDecEq : (a b : Pred) → Decidable (a = b)
  | .mk n1 g1 b1 ts1 y1, .mk n2 g2 b2 ts2 y2 =>
    match decEq n1 n2, decEq g1 g2, decEq b1 b2, predListDecEq ts1 ts2, decEq y1 y2 with
    | isTrue h1, isTrue h2, isTrue h3, isTrue h4, isTrue h5 =>
        isTrue (by rw [h1, h2, h3, h4, h5])
    | isFalse h1, _, _, _, _ =>
        isFalse (by intro hc; injection hc with e1 e2 e3 e4 e5; exact h1 e1)
    | _, isFalse h2, _, _, _ =>
        isFalse (by intro hc; injection hc with e1 e2 e3 e4 e5; exact h2 e2)
    | _, _, isFalse h3, _, _ =>
        isFalse (by intro hc; injection hc with e1 e2 e3 e4 e5; exact h3 e3)
    | _, _, _, isFalse h4, _ =>
        isFalse (by intro hc; injection hc with e1 e2 e3 e4 e5; exact h4 e4)
    | _, _, _, _, isFalse h5 =>
        isFalse (by intro hc; injection hc with e1 e2 e3 e4 e5; exact h5 e5)

/-- Decidable structural equality for lists of `Pred`. -/
def predListDecEq : (a b : List Pred) → Decidable (a = b)
  | [], [] => isTrue rfl
  | [], _ :: _ => isFalse nofun
  | _ :: _, [] => isFalse nofun
  | p :: ps, q :: qs =>
    match predDecEq p q, predListDecEq ps qs with
    | isTrue h1, isTrue h2 => isTrue (by rw [h1, h2])
    | isFalse h1, _ => isFalse (by intro hc; injection hc with e1 e2; exact h1 e1)
    | _, isFalse h2 => isFalse (by intro hc; injection hc with e1 e2; exact h2 e2)

end

instance : DecidableEq Pred := predDecEq

/-- The Python `Clause` class. -/
structure Clause : Type where
  name : String
  predicates : List Pred
deriving DecidableEq

/-- A Python `dict[str, str]`: insertion-ordered key/value pairs. -/
abbrev Subst := List (String × String)

/-- Python `theta[k]` lookup / `k in theta.keys()`. -/
def slookup : Subst → String → Option String
  | [], _ => none
  | (k0, v0) :: rest, k => if k0 == k then some v0 else slookup rest k

/-- Python `theta[k] = v`: update in place if present, else append. -/
def sinsert : Subst → String → String → Subst
  | [], k, v => [(k, v)]
  | (k0, v0) :: rest, k, v =>
      if k0 == k then (k0, v) :: rest else (k0, v0) :: sinsert rest k v

/-- Python `a | b` on dicts: left operand's key order, right operand wins. -/
def dunion (a b : Subst) : Subst := b.foldl (fun acc kv => sinsert acc kv.1 kv.2) a

/-- `Predicate.__eq__`: compares only `name`, `type` and `negated`
(the `type` test appears twice in the source); the `terms` are ignored. -/
def predEq (p q : Pred) : Bool :=
  p.name == q.name && p.type == q.type && p.negated == q.negated && p.type == q.type

/-- The characters of `s` before the first `'('` (`s[:s.index("(")]`). -/
def takeUntilParen : List Char → List Char
  | [] => []
  | c :: cs => if c = '(' then [] else c :: takeUntilParen cs

/-- `s[:s.index("(")]`; `none` models the `ValueError` raised by
`str.index` when `"("` does not occur. -/
def nameBeforeParen (s : String) : Option String :=
  if s.data.contains '(' then some ⟨takeUntilParen s.data⟩ else none

/-- Outcome of `unify`: a returned dict, the `None` failure sentinel,
or a raised exception. -/
inductive URes : Type where
  | ok (theta : Subst)
  | fail
  | err
deriving DecidableEq

/-- `unify_variable(variable, term2, theta)`.  The source first tests
`variable.name in unifications.keys()` and then `term2.name in
unifications.keys()`.  In either of those branches it computes
`getFinalForm` (which recurses forever on a cyclic chain, a
`RecursionError`) and then calls `Predicate.__copy__`, which invokes the
five-parameter `Predicate.__init__` with only four arguments and therefore
always raises `TypeError`; both branches thus end in a raised exception,
modelled as `URes.err`.  Otherwise it mutates the dict it was given:
`unifications[variable.name] = term2.name`, and returns that same dict. -/
def unify_variable (v term2 : Pred) (theta : Subst) : URes :=
  if (slookup theta v.name).isSome then .err
  else if (slookup theta term2.name).isSome then .err
  else .ok (sinsert theta v.name term2.name)

mutual

/-- `unify(t1, t2, oldTheta)` from the source.  `theta = oldTheta.copy()`
is value copying; in the variable branches `unify_variable` mutates and
returns that same copy, so the source's `theta | uni_var_res` unions the
updated dict with itself (`dunion u u`).  In the function branch the
source compares the name prefixes before `"("` and then unifies *every*
argument of `t1` against *every* argument of `t2` in nested loops, calling
`unify(termInner, termOuter, theta)` with the accumulated `theta`. -/
def unify (t1 t2 : Pred) (oldTheta : Subst) : URes :=
  let theta := oldTheta
  if predEq t1 t2 then .ok theta
  else if t1.type == VARIABLE_TYPE then
    match unify_variable t1 t2 theta with
    | .ok u => .ok (dunion u u)
    | .fail => .fail
    | .err => .err
  else if t2.type == VARIABLE_TYPE then
    match unify_variable t2 t1 theta with
    | .ok u => .ok (dunion u u)
    | .fail => .fail
    | .err => .err
  else if t2.type == FUNCTION_TYPE && t1.type == FUNCTION_TYPE then
    match nameBeforeParen t1.name with
    | none => .err
    | some n1 =>
      match nameBeforeParen t2.name with
      | none => .err
      | some n2 =>
        if n1 != n2 then .fail
        else unifyOuter t1.terms t2.terms theta
  else .fail
termination_by sizeOf t1 + sizeOf t2
decreasing_by
  have h1 : sizeOf t1.terms < sizeOf t1 := by cases t1; simp [Pred.terms]; omega
  have h2 : sizeOf t2.terms < sizeOf t2 := by cases t2; simp [Pred.terms]; omega
  omega

/-- The outer loop `for termOuter in t1.terms` of `unify`'s function
branch, threading `theta`. -/
def unifyOuter (outers inners : List Pred) (theta : Subst) : URes :=
  match outers with
  | [] => .ok theta
  | o :: os =>
    match unifyInner o inners theta with
    | .ok theta2 => unifyOuter os inners theta2
    | .fail => .fail
    | .err => .err
termination_by sizeOf outers + sizeOf inners

/-- The inner loop `for termInner in t2.terms`: on each success the source
rebinds `theta = theta | uni_res`; `None` aborts the whole `unify` call. -/
def unifyInner (o : Pred) (inners : List Pred) (theta : Subst) : URes :=
  match inners with
  | [] => .ok theta
  | i :: is2 =>
    match unify i o theta with
    | .ok r => unifyInner o is2 (dunion theta r)
    | .fail => .fail
    | .err => .err
termination_by sizeOf o + sizeOf inners

end

/-- `getFinalForm(variableName, theta)` with an explicit recursion budget:
the source recurses with no bound, so `none` at every budget models the
unbounded recursion (Python's `RecursionError`) on a cyclic chain. -/
def getFinalFormF : Nat → String → Subst → Option String
  | 0, _, _ => none
  | fuel + 1, variableName, theta =>
    match slookup theta variableName with
    | none => some variableName
    | some translated => getFinalFormF fuel translated theta

/-- The loop of `unify_predicates`: `for i in range(len(p1.terms))`
indexing `p2.terms[i]`; running past the end of `p2.terms` is an
`IndexError` (`err`).  On success the source sets
`unification_theta = tempTheta | unification_theta`. -/
def upLoop : List Pred → List Pred → Subst → URes
  | [], _, theta => .ok theta
  | _ :: _, [], _ => .err
  | t1 :: ts1, t2 :: ts2, theta =>
    match unify t1 t2 theta with
    | .ok tempTheta => upLoop ts1 ts2 (dunion tempTheta theta)
    | .fail => .fail
    | .err => .err

/-- `unify_predicates(p1, p2)`: positional unification of the two
argument lists starting from the empty substitution. -/
def unify_predicates (p1 p2 : Pred) : URes :=
  upLoop p1.terms p2.terms []

/-- Python `str.strip()` on the whitespace characters that occur in this
program's inputs. -/
def pyStrip (s : String) : String :=
  let ws : Char → Bool := fun c => c = ' ' || c = '\t' || c = '\n' || c = '\r'
  ⟨((s.data.dropWhile ws).reverse.dropWhile ws).reverse⟩

/-- Python `s.split(",")`. -/
def splitCommaAux : List Char → List Char → List String
  | [], acc => [⟨acc.reverse⟩]
  | c :: cs, acc =>
      if c = ',' then ⟨acc.reverse⟩ :: splitCommaAux cs []
      else splitCommaAux cs (c :: acc)

def pySplitComma (s : String) : List String := splitCommaAux s.data []

/-- `s.index("(")` as a character index (used only when `'('` occurs). -/
def firstParenIdx (l : List Char) : Nat := l.findIdx (· == '(')

/-- `termParser(term_str, variables, constants)` with an explicit recursion
budget; `none` models both the `raise Exception("error bad parse")` on an
undeclared symbol and exhaustion of the budget.  A function term keeps the
whole (stripped) string as its `name` and the part before `"("` as its
`nameTag`; the argument slice `term_str[first_paren+1 : len(term_str)-1]`
is split on every comma. -/
def termParserF : Nat → List String → List String → String → Option Pred
  | 0, _, _, _ => none
  | fuel + 1, variables2, constants2, termStr =>
    let s := pyStrip termStr
    if s.data.contains '(' then
      let tag : String := ⟨takeUntilParen s.data⟩
      let firstParen := firstParenIdx s.data
      let inner : String := ⟨(s.data.drop (firstParen + 1)).take (s.data.length - 1 - (firstParen + 1))⟩
      match (pySplitComma inner).mapM (termParserF fuel variables2 constants2) with
      | none => none
      | some ts => some (.mk s tag false ts FUNCTION_TYPE)
    else if variables2.contains s then some (.mk s s false [] VARIABLE_TYPE)
    else if constants2.contains s then some (.mk s s false [] CONSTANT_TYPE)
    else none

mutual

/-- `getFinalPredicate(predicate, theta)`: rewrites the term list via
`gfpTerms`, then rebuilds the display name as
`nameTag + "(" + (" " + term.name for each term) + " )"` and returns a
predicate with the original `negated`, `type` and `nameTag`.  The Python
globals `constants` and `variables` are passed explicitly, and the
recursion (structural in the source) carries an explicit budget:
exhaustion yields `none`, and every run of the source is reproduced at a
sufficiently large budget. -/
def getFinalPredicate : Nat → List String → List String → Pred → Subst → Option Pred
  | 0, _, _, _, _ => none
  | fuel + 1, constants2, variables2, p, theta =>
    match gfpTerms fuel constants2 variables2 p.terms theta with
    | none => none
    | some newTerms =>
      let newName := (newTerms.foldl (fun acc t => acc ++ " " ++ t.name) (p.nameTag ++ "(")) ++ " )"
      some (.mk newName p.nameTag p.negated newTerms p.type)

/-- The `for term in predicate.terms` loop of `getFinalPredicate`:
constants pass through unchanged; a variable is replaced by the final form
of its chain, classified against the declared constant and variable symbol
sets (re-parsed by `termParser` when it is a function string, and
`print("error"); exit()` — modelled as `none` — otherwise); a function term
is rewritten recursively.  A term whose `type` tag is none of the three is
silently dropped (the source's `if/elif/elif` has no `else`). -/
def gfpTerms : Nat → List String → List String → List Pred → Subst → Option (List Pred)
  | 0, _, _, _, _ => none
  | fuel + 1, constants2, variables2, ts, theta =>
    match ts with
    | [] => some []
    | term :: rest =>
      if term.type == CONSTANT_TYPE then
        (gfpTerms fuel constants2 variables2 rest theta).map (term :: ·)
      else if term.type == VARIABLE_TYPE then
        match getFinalFormF fuel term.name theta with
        | none => none
        | some finalForm =>
          let newVar : Option Pred :=
            if constants2.contains finalForm then
              some (.mk finalForm finalForm false [] CONSTANT_TYPE)
            else if variables2.contains finalForm then
              some (.mk finalForm finalForm false [] VARIABLE_TYPE)
            else if finalForm.data.contains '(' then
              termParserF fuel variables2 constants2 finalForm
            else none
          match newVar with
          | none => none
          | some nv => (gfpTerms fuel constants2 variables2 rest theta).map (nv :: ·)
      else if term.type == FUNCTION_TYPE then
        match getFinalPredicate fuel constants2 variables2 term theta with
        | none => none
        | some finalFunction =>
          (gfpTerms fuel constants2 variables2 rest theta).map (finalFunction :: ·)
      else
        gfpTerms fuel constants2 variables2 rest theta

end

/-- `Clause.__eq__`: two empty clauses compare by name alone; otherwise the
names must match, the lengths must match, and only the predicates at
indices `0 .. len-2` are compared (`for i in range(len(self.predicates) - 1)`
skips the final literal), each via `Predicate.__eq__`. -/
def clauseEq (c1 c2 : Clause) : Bool :=
  if c1.predicates.length == 0 && c2.predicates.length == 0 && c1.name == c2.name then true
  else if c1.name == c2.name then
    if c1.predicates.length == c2.predicates.length then
      ((c1.predicates.zip c2.predicates).take (c1.predicates.length - 1)).all
        fun pq => predEq pq.1 pq.2
    else false
  else false

/-- Python set membership for clauses (`x in s`), which compares with
`Clause.__eq__` (the `__hash__` on the clause name sends `__eq__`-equal
clauses to the same bucket, so bucketing never hides a match). -/
def clMem (c : Clause) (s : List Clause) : Bool := s.any fun d => clauseEq c d

/-- Adding one clause to a Python set: kept only if no `__eq__`-equal
clause is present. -/
def setInsert (s : List Clause) (c : Clause) : List Clause :=
  if clMem c s then s else s ++ [c]

/-- `set(l)`. -/
def setify (l : List Clause) : List Clause := l.foldl setInsert []

/-- Python set union `a | b`. -/
def clUnion (a b : List Clause) : List Clause := b.foldl setInsert a

/-- Python `a.issubset(b)`. -/
def clSubset (a b : List Clause) : Bool := a.all fun c => clMem c b

/-- The literals of `ps` other than the occurrence at index `i`.  The
source's nullary branch skips `c1_pred_combine is c1_pred`: object
identity, which for the distinct literal objects of a parsed clause is
position in the list. -/
def exclId (ps : List Pred) (i : Nat) : List Pred :=
  (ps.enum.filter fun kp => kp.1 != i).map (·.2)

/-- The contribution of one kept literal to the resolvent's name.  The
source line is `new_name += "!" if lit.negated else "" + lit.name + " "`,
which Python parses as `("!" if lit.negated else lit.name + " ")`. -/
def litPiece (p : Pred) : String := if p.negated then "!" else p.name ++ " "

/-- The resolvent display name accumulated over the kept literals. -/
def buildName (ps : List Pred) : String := ps.foldl (fun acc p => acc ++ litPiece p) ""

/-- The `(c1_pred, c2_pred)` iteration order of `resolve`'s nested loops,
with positions recorded for the identity-based exclusion. -/
def literalPairs (c1 c2 : Clause) : List ((Nat × Pred) × (Nat × Pred)) :=
  c1.predicates.enum.flatMap fun ip => c2.predicates.enum.map fun jq => (ip, jq)

/-- One step of `resolve`'s pair loop, threading `global_unification` and
`out_clause`.  A complementary pair (same `nameTag`, opposite `negated`)
with two empty term lists yields a resolvent of the remaining literals with
the matched occurrences excluded by identity; otherwise `unify_predicates`
decides: `None` skips the pair, an exception propagates, and success merges
the pair's unifier into `global_unification` and builds the resolvent from
the literals whose `name` differs from the matched literal's `name`, each
rewritten by `getFinalPredicate` under the accumulated substitution.
The source also adds the matched literals to a `resolved_predicates` set
that is never read afterwards; that dead write is omitted here. -/
def resolveStep (fuel : Nat) (constants2 variables2 : List String) (c1 c2 : Clause)
    (st : Subst × List Clause) (pr : (Nat × Pred) × (Nat × Pred)) :
    Except Unit (Subst × List Clause) :=
  let globalUnification := st.1
  let outClause := st.2
  let i := pr.1.1
  let p := pr.1.2
  let j := pr.2.1
  let q := pr.2.2
  if q.nameTag == p.nameTag && p.negated != q.negated then
    if p.terms.isEmpty && q.terms.isEmpty then
      let outputPred := exclId c1.predicates i ++ exclId c2.predicates j
      .ok (globalUnification, outClause ++ [⟨buildName outputPred, outputPred⟩])
    else
      match unify_predicates p q with
      | .err => .error ()
      | .fail => .ok (globalUnification, outClause)
      | .ok predUni =>
        let g2 := dunion globalUnification predUni
        let remaining := (c1.predicates.filter fun r => r.name != p.name)
          ++ (c2.predicates.filter fun r => r.name != q.name)
        match remaining.mapM (fun r => getFinalPredicate fuel constants2 variables2 r g2) with
        | none => .error ()
        | some newPreds => .ok (g2, outClause ++ [⟨buildName remaining, newPreds⟩])
  else .ok (globalUnification, outClause)

/-- `resolve(clause1, clause2)`: the pair loop followed by
`out_clause.append(clause1); out_clause.append(clause2)`. -/
def resolve (fuel : Nat) (constants2 variables2 : List String) (c1 c2 : Clause) :
    Except Unit (List Clause) :=
  match (literalPairs c1 c2).foldlM (resolveStep fuel constants2 variables2 c1 c2) ([], []) with
  | .error e => .error e
  | .ok st => .ok (st.2 ++ [c1, c2])

/-- Outcome of one saturation round of `resolver`: `unsat` is the
`print("no"); exit()` branch, `sat` the `print("yes"); exit()` branch,
`cont` carries the updated `current_clauses` and `new_clause` sets, and
`err` a propagated exception. -/
inductive RoundRes : Type where
  | unsat
  | sat
  | cont (currentClauses newClause : List Clause)
  | err
deriving DecidableEq

/-- The unordered index pairs `c1_index < c2_index` of `resolver`'s two
loops, in iteration order. -/
def pairList : List Clause → List (Clause × Clause)
  | [] => []
  | c :: rest => (rest.map fun d => (c, d)) ++ pairList rest

/-- `Clause("", [])`, the probe of the empty-clause test. -/
def emptyClause : Clause := ⟨"", []⟩

/-- The body of `resolver`'s `while True`: for each clause pair, resolve;
`Clause("", []) in resolvents` exits with "no"; otherwise the resolvents
are unioned (as a set) into `new_clause`.  After all pairs,
`new_clause.issubset(current_clauses)` exits with "yes", else the new
clauses are merged and the next round runs.  A Python set iterates in an
unspecified order; the sets are rendered as ordered lists here, and the
properties proved of a round do not depend on that order. -/
def roundGo (fuel : Nat) (constants2 variables2 : List String) :
    List (Clause × Clause) → List Clause → List Clause → RoundRes
  | [], currentClauses, newClause =>
    if clSubset newClause currentClauses then .sat
    else .cont (clUnion currentClauses newClause) newClause
  | pr :: rest, currentClauses, newClause =>
    match resolve fuel constants2 variables2 pr.1 pr.2 with
    | .error _ => .err
    | .ok resolvents =>
      if resolvents.any fun c => clauseEq c emptyClause then .unsat
      else roundGo fuel constants2 variables2 rest currentClauses
        (clUnion newClause (setify resolvents))

/-- One full round of `resolver` on the state `(current_clauses, new_clause)`. -/
def resolverRound (fuel : Nat) (constants2 variables2 : List String)
    (currentClauses newClause : List Clause) : RoundRes :=
  roundGo fuel constants2 variables2 (pairList currentClauses) currentClauses newClause

/-- Outcome of the whole engine under a round budget: the source's
`while True` has none, so `outOfRounds` marks exhaustion of the budget. -/
inductive EngineOut : Type where
  | unsatNo
  | satYes
  | err
  | outOfRounds
deriving DecidableEq

/-- `resolver`'s saturation loop, iterating `resolverRound`. -/
def resolverLoop (rounds fuel : Nat) (constants2 variables2 : List String)
    (currentClauses newClause : List Clause) : EngineOut :=
  match rounds with
  | 0 => .outOfRounds
  | r + 1 =>
    match resolverRound fuel constants2 variables2 currentClauses newClause with
    | .unsat => .unsatNo
    | .sat => .satYes
    | .err => .err
    | .cont cur2 acc2 => resolverLoop r fuel constants2 variables2 cur2 acc2

/-- `resolver(clauses)`: starts from `set(clauses.copy())` and an empty
`new_clause` set. -/
def resolver (rounds fuel : Nat) (constants2 variables2 : List String)
    (clauses : List Clause) : EngineOut :=
  resolverLoop rounds fuel constants2 variables2 (setify clauses) []

/-- The resolvents produced over a list of clause pairs, in iteration
order (used to state properties of one `resolver` round). -/
def roundResolvents (fuel : Nat) (constants2 variables2 : List String) :
    List (Clause × Clause) → Except Unit (List Clause)
  | [] => .ok []
  | pr :: rest =>
    match resolve fuel constants2 variables2 pr.1 pr.2 with
    | .error e => .error e
    | .ok rs =>
      match roundResolvents fuel constants2 variables2 rest with
      | .error e => .error e
      | .ok more => .ok (rs ++ more)

/-- The value of `new_clause` after a round's pair loop (when no exit was
taken): the per-pair resolvent sets unioned in iteration order. -/
def roundAccum (fuel : Nat) (constants2 variables2 : List String) :
    List (Clause × Clause) → List Clause → Except Unit (List Clause)
  | [], newClause => .ok newClause
  | pr :: rest, newClause =>
    match resolve fuel constants2 variables2 pr.1 pr.2 with
    | .error e => .error e
    | .ok rs => roundAccum fuel constants2 variables2 rest (clUnion newClause (setify rs))

/-- The final form a single chain step computes once no further binding
exists: the bound value if the name is a key of `theta`, else the name
itself (used to state properties of fully-resolved substitutions). -/
def finalOf (theta : Subst) (n : String) : String := (slookup theta n).getD n

mutual

/-- Well-formedness of a term with respect to the declared symbol sets and
a substitution, to the given depth budget: every node is tagged constant,
variable or function, and the final form of every variable is a declared
constant or variable symbol (so `getFinalPredicate` never reaches its
re-parse or error branches).  The budget is aligned with the one of
`getFinalPredicate`. -/
def wfTermF : Nat → List String → List String → Subst → Pred → Bool
  | 0, _, _, _, _ => false
  | fuel + 1, constants2, variables2, theta, p =>
    if p.type == CONSTANT_TYPE then true
    else if p.type == VARIABLE_TYPE then
      constants2.contains (finalOf theta p.name) || variables2.contains (finalOf theta p.name)
    else if p.type == FUNCTION_TYPE then wfTermsF fuel constants2 variables2 theta p.terms
    else false

/-- `wfTermF` over a term list. -/
def wfTermsF : Nat → List String → List String → Subst → List Pred → Bool
  | 0, _, _, _, _ => false
  | fuel + 1, constants2, variables2, theta, ts =>
    match ts with
    | [] => true
    | t :: rest =>
      wfTermF fuel constants2 variables2 theta t && wfTermsF fuel constants2 variables2 theta rest

end

/-! ### Store-level model of `unify`

`unify`'s first statement is `theta = oldTheta.copy()`, and the only
in-place dict mutation in the unifier (`unifications[variable.name] =
term2.name` inside `unify_variable`) targets the dict object passed to
`unify_variable`, which is always that copy.  To state that the *caller's*
dict object is never written, the functions are repeated here over an
explicit store of dict objects, with dict identity as a store address:
`oldTheta.copy()` allocates, `unify_variable` writes through its address
argument and returns that same address (Python aliasing), and each
`theta = theta | uni_res` rebinding allocates a fresh dict.  The
recursion is bounded by a fuel parameter (exhaustion yields `err` with
the store unchanged); the recursion of the source terminates structurally,
so every run is reproduced at a sufficiently large fuel. -/

/-- A store of Python dict objects, addressed by allocation index. -/
abbrev Store := List Subst

/-- The contents of the dict at address `a`. -/
def readS (s : Store) (a : Nat) : Subst := (s[a]?).getD []

/-- Overwrite the dict object at address `a`. -/
def writeS (s : Store) (a : Nat) (v : Subst) : Store := s.set a v

/-- Outcome of `unify_variable` at store level: the returned dict is an
address (it aliases the argument dict). -/
inductive VResH : Type where
  | okAddr (a : Nat)
  | fail
  | err
deriving DecidableEq

/-- Outcome of `unify` at store level: the returned dict is produced by
`theta | uni_var_res` (a fresh object the caller never mutates), so it is
reported by value. -/
inductive HRes : Type where
  | ok (theta : Subst)
  | fail
  | err
deriving DecidableEq

/-- `unify_variable` at store level: reads the dict at `aTheta`; the two
chain branches raise (see `unify_variable`); the else branch writes the
new binding through `aTheta` and returns that same address. -/
def unify_variableH (v t2 : Pred) (aTheta : Nat) (s : Store) : VResH × Store :=
  if (slookup (readS s aTheta) v.name).isSome then (.err, s)
  else if (slookup (readS s aTheta) t2.name).isSome then (.err, s)
  else (.okAddr aTheta, writeS s aTheta (sinsert (readS s aTheta) v.name t2.name))

mutual

/-- `unify` at store level.  `theta = oldTheta.copy()` allocates a fresh
dict at address `s.length` holding the contents read through `aOld`. -/
def unifyH : Nat → Pred → Pred → Nat → Store → HRes × Store
  | 0, _, _, _, s => (.err, s)
  | fuel + 1, t1, t2, aOld, s =>
    let aTheta := s.length
    let s1 := s ++ [readS s aOld]
    if predEq t1 t2 then (.ok (readS s1 aTheta), s1)
    else if t1.type == VARIABLE_TYPE then
      match unify_variableH t1 t2 aTheta s1 with
      | (.okAddr u, s2) => (.ok (dunion (readS s2 aTheta) (readS s2 u)), s2)
      | (.fail, s2) => (.fail, s2)
      | (.err, s2) => (.err, s2)
    else if t2.type == VARIABLE_TYPE then
      match unify_variableH t2 t1 aTheta s1 with
      | (.okAddr u, s2) => (.ok (dunion (readS s2 aTheta) (readS s2 u)), s2)
      | (.fail, s2) => (.fail, s2)
      | (.err, s2) => (.err, s2)
    else if t2.type == FUNCTION_TYPE && t1.type == FUNCTION_TYPE then
      match nameBeforeParen t1.name with
      | none => (.err, s1)
      | some n1 =>
        match nameBeforeParen t2.name with
        | none => (.err, s1)
        | some n2 =>
          if n1 != n2 then (.fail, s1)
          else unifyOuterH fuel t1.terms t2.terms aTheta s1
    else (.fail, s1)
termination_by fuel _ _ _ _ => (fuel, 0, 0)

/-- The outer argument loop at store level: threads the address of the
current `theta` object. -/
def unifyOuterH (fuel : Nat) : List Pred → List Pred → Nat → Store → HRes × Store
  | [], _, aTheta, s => (.ok (readS s aTheta), s)
  | o :: os, inners, aTheta, s =>
    match unifyInnerH fuel o inners aTheta s with
    | (.okAddr a2, s2) => unifyOuterH fuel os inners a2 s2
    | (.fail, s2) => (.fail, s2)
    | (.err, s2) => (.err, s2)
termination_by os _ _ _ => (fuel, 2, os.length)

/-- The inner argument loop at store level: each successful step's
`theta = theta | uni_res` allocates a fresh dict and continues with its
address. -/
def unifyInnerH (fuel : Nat) (o : Pred) : List Pred → Nat → Store → VResH × Store
  | [], aTheta, s => (.okAddr aTheta, s)
  | i :: is2, aTheta, s =>
    match unifyH fuel i o aTheta s with
    | (.ok r, s2) => unifyInnerH fuel o is2 s2.length (s2 ++ [dunion (readS s2 aTheta) r])
    | (.fail, s2) => (.fail, s2)
    | (.err, s2) => (.err, s2)
termination_by is2 _ _ => (fuel, 1, is2.length)

end

/-! ### Concrete terms and clauses used in the claim instances -/

/-- The variable term `x`. -/
def xv : Pred := .mk "x" "x" false [] VARIABLE_TYPE

/-- The constant term `a`. -/
def ca : Pred := .mk "a" "a" false [] CONSTANT_TYPE

/-- The constant term `b`. -/
def cb : Pred := .mk "b" "b" false [] CONSTANT_TYPE

/-- The function term `f(x)` as `termParser` builds it. -/
def fx : Pred := .mk "f(x)" "f" false [xv] FUNCTION_TYPE

/-- The nullary function term `f()`. -/
def fnil : Pred := .mk "f()" "f" false [] FUNCTION_TYPE

/-- The function term `f(a)`. -/
def fa : Pred := .mk "f(a)" "f" false [ca] FUNCTION_TYPE

/-- The binary function term `f(a,b)`. -/
def fab : Pred := .mk "f(a,b)" "f" false [ca, cb] FUNCTION_TYPE

/-- The literal `P(x)`. -/
def Px : Pred := .mk "P" "P" false [xv] PREDICATE_TYPE

/-- The literal `P(a)`. -/
def Pa : Pred := .mk "P" "P" false [ca] PREDICATE_TYPE

/-- The literal `P(b)`. -/
def Pb : Pred := .mk "P" "P" false [cb] PREDICATE_TYPE

/-- The literal `P(x,x)`. -/
def Pxx : Pred := .mk "P" "P" false [xv, xv] PREDICATE_TYPE

/-- The literal `!P(a,b)`. -/
def nPab : Pred := .mk "P" "P" true [ca, cb] PREDICATE_TYPE

/-- The literal `!P(a)`. -/
def nPa : Pred := .mk "P" "P" true [ca] PREDICATE_TYPE

/-- The clause `P(x) P(b)`. -/
def cl1 : Clause := ⟨"P(x) P(b)", [Px, Pb]⟩

/-- The clause `!P(a)`. -/
def cl2 : Clause := ⟨"!P(a)", [nPa]⟩

/-- A cyclic substitution `{x: y, y: x}`. -/
def thetaCyc : Subst := [("x", "y"), ("y", "x")]

/-- The fully-resolved substitution `{x: f(a)}` whose single bound value
is a function string. -/
def thetaFun : Subst := [("x", "f(a)")]

/-- `getFinalPredicate` applied once to `P(x)` under `thetaFun`. -/
def gfpOnce : Pred :=
  .mk "P( f(a) )" "P" false [.mk "f(a)" "f" false [ca] FUNCTION_TYPE] PREDICATE_TYPE

/-- `getFinalPredicate` applied twice to `P(x)` under `thetaFun`: the
function subterm's display name is rebuilt with interior spaces. -/
def gfpTwice : Pred :=
  .mk "P( f( a ) )" "P" false [.mk "f( a )" "f" false [ca] FUNCTION_TYPE] PREDICATE_TYPE

/-- `getFinalPredicate` applied (once or twice) to `P(x)` under the
fully-resolved symbol-valued substitution `{x: a}`. -/
def gfpFix : Pred := .mk "P( a )" "P" false [.mk "a" "a" false [] CONSTANT_TYPE] PREDICATE_TYPE

/-- The one-clause set `{Q()}` used to exercise a saturation round. -/
def qClause : Clause := ⟨"Q()", [.mk "Q" "Q" false [] PREDICATE_TYPE]⟩

/-!
## Theorems

Each claim of the specification is settled below against the embedding.
-/

/-- C1: the claim states that unifying two `Function` terms succeeds only
when names *and arities* agree and that arguments are paired positionally,
never cross-matched.  The code has no arity test and cross-matches in
nested loops: `unify(f(), f(a), {})` succeeds with the empty substitution
despite arities 0 and 1, and `unify(f(x), f(a,b), {})` matches `x` first
against `a` and then against the non-corresponding `b`, at which point the
already-bound `x` makes the chain branch raise. -/
theorem unify_function_args_not_positional :
    unify fnil fa [] = .ok [] ∧ unify fx fab [] = .err := by
  constructor
  · simp only [unify, unifyOuter, unifyInner, unify_variable, predEq, slookup, sinsert, dunion,
      nameBeforeParen, takeUntilParen, FUNCTION_TYPE, VARIABLE_TYPE, CONSTANT_TYPE,
      PREDICATE_TYPE, Pred.name, Pred.nameTag, Pred.type, Pred.negated, Pred.terms,
      fnil, fa, ca]
    decide
  · simp only [unify, unifyOuter, unifyInner, unify_variable, predEq, slookup, sinsert, dunion,
      nameBeforeParen, takeUntilParen, FUNCTION_TYPE, VARIABLE_TYPE, CONSTANT_TYPE,
      PREDICATE_TYPE, Pred.name, Pred.nameTag, Pred.type, Pred.negated, Pred.terms,
      fx, fab, xv, ca, cb]
    decide

/-- C2: the claim states that unifying an unbound variable against a term
properly containing it fails by occurs-check; the code has no
occurs-check and `unify(Variable("x"), Function("f",[Variable("x")]), {})`
succeeds, binding `x` to the string `"f(x)"`. -/
theorem unify_has_no_occurs_check :
    unify xv fx [] = .ok [("x", "f(x)")] := by
  simp only [unify, unify_variable, predEq, slookup, sinsert, dunion,
    FUNCTION_TYPE, VARIABLE_TYPE, Pred.name, Pred.type, xv, fx]
  decide

/-- The two names of the cyclic substitution `{x: y, y: x}` make
`getFinalForm` recurse forever: no recursion budget completes. -/
theorem getFinalFormF_cyc_aux :
    ∀ n, getFinalFormF n "x" thetaCyc = none ∧ getFinalFormF n "y" thetaCyc = none := by
  intro n
  induction n with
  | zero => exact ⟨rfl, rfl⟩
  | succ k ih => exact ⟨ih.2, ih.1⟩

/-- C4: the claim states that chain-following terminates on every
substitution, detecting binding cycles and failing cleanly.  The code's
`getFinalForm` recurses with no cycle detection: on `{x: y, y: x}` the
lookup of `x` never completes at any recursion depth (Python's
`RecursionError`), rather than failing the unification attempt. -/
theorem getFinalForm_unbounded_on_cycle :
    ∀ n, getFinalFormF n "x" thetaCyc = none :=
  fun n => (getFinalFormF_cyc_aux n).1

/-- C5: the claim states literal equality holds iff predicate name,
negation and the argument sequences all agree.  `Predicate.__eq__`
compares only name, type and negation: `P(a)` and `P(b)` compare equal
despite structurally different argument lists. -/
theorem predEq_ignores_arguments :
    predEq Pa Pb = true ∧ Pa.terms ≠ Pb.terms := by
  constructor
  · decide
  · decide

/-- C6: the claim states clause identity is literal-multiset equality,
independent of the display label, with every literal participating.
`Clause.__eq__` requires the display names to match and its loop
`for i in range(len - 1)` never compares the final literal: two clauses
with the same label differing only in their last literal compare equal,
while two empty clauses with different labels compare unequal. -/
theorem clauseEq_label_and_last_literal :
    clauseEq ⟨"c", [Pa]⟩ ⟨"c", [Pb]⟩ = true ∧ Pa ≠ Pb
      ∧ clauseEq ⟨"u", []⟩ ⟨"v", []⟩ = false := by
  refine ⟨by decide, by decide, by decide⟩

/-- C7: the claim states a resolvent keeps all literals of both parents
except the two matched occurrences (excluded by identity, so a
duplicate-named literal survives).  The code's unify branch excludes by
predicate *name*: resolving `{P(x), P(b)}` with `{!P(a)}` on the pair
`(P(x), !P(a))` also drops `P(b)` and produces the empty clause, where the
claim requires the resolvent `{P(b)}`. -/
theorem resolve_drops_duplicate_named_literals :
    resolve 10 ["a", "b"] ["x"] cl1 cl2 = .ok [⟨"", []⟩, cl1, cl2] := by
  simp [resolve, resolveStep, literalPairs, unify_predicates, upLoop, unify, unify_variable,
    predEq, slookup, sinsert, dunion, exclId, litPiece, buildName,
    getFinalPredicate, gfpTerms, getFinalFormF, termParserF,
    FUNCTION_TYPE, VARIABLE_TYPE, CONSTANT_TYPE, PREDICATE_TYPE,
    Pred.name, Pred.nameTag, Pred.type, Pred.negated, Pred.terms,
    cl1, cl2, Px, Pb, nPa, xv, ca, cb, List.enum, List.mapM, List.mapM.loop]
  rfl

/-- C8: the claim states `unify` and `unify_predicates` always return a
substitution or the `None` sentinel and never raise — specifically also
when a variable being unified already has a binding.  In that chain case
`unify_variable` calls `Predicate.__copy__`, which passes four arguments
to the five-parameter `__init__` and raises `TypeError`: both
`unify(x, b, {x: a})` and `unify_predicates(P(x,x), !P(a,b))` (whose
second position meets a bound `x`) end in a raised exception. -/
theorem unify_raises_on_bound_variable :
    unify xv cb [("x", "a")] = .err ∧ unify_predicates Pxx nPab = .err := by
  constructor
  · simp only [unify, unify_variable, predEq, slookup, sinsert, dunion,
      VARIABLE_TYPE, Pred.name, Pred.type, xv, cb]
    decide
  · simp only [unify_predicates, upLoop, unify, unify_variable, predEq, slookup, sinsert, dunion,
      FUNCTION_TYPE, VARIABLE_TYPE, CONSTANT_TYPE, PREDICATE_TYPE,
      Pred.name, Pred.nameTag, Pred.type, Pred.negated, Pred.terms, Pxx, nPab, xv, ca, cb]
    decide

/-- A successful lookup exhibits its pair as a member of the
association list. -/
theorem slookup_mem {theta : Subst} {n v : String} (h : slookup theta n = some v) :
    (n, v) ∈ theta := by
  induction theta with
  | nil => simp [slookup] at h
  | cons kv rest ih =>
    obtain ⟨k1, v1⟩ := kv
    by_cases hk : k1 = n
    · subst hk
      simp [slookup] at h
      subst h
      exact List.mem_cons_self _ _
    · have hk2 : (k1 == n) = false := by simpa using hk
      simp [slookup, hk2] at h
      exact List.mem_cons_of_mem _ (ih h)

/-- A successful chain lookup consumed at least one unit of budget. -/
theorem getFinalFormF_pos {fuel : Nat} {n w : String} {theta : Subst}
    (h : getFinalFormF fuel n theta = some w) : 1 ≤ fuel := by
  cases fuel with
  | zero => simp [getFinalFormF] at h
  | succ k => omega

/-- On an unbound name, one unit of budget returns the name itself. -/
theorem getFinalFormF_unbound {n : String} {theta : Subst} (h : slookup theta n = none) :
    ∀ fuel, 1 ≤ fuel → getFinalFormF fuel n theta = some n := by
  intro fuel hf
  cases fuel with
  | zero => omega
  | succ k => simp [getFinalFormF, h]

/-- Over a fully resolved substitution (no bound value is itself a key),
a successful chain lookup returns exactly the one-step final form, and
that final form is unbound. -/
theorem getFinalFormF_resolved {theta : Subst}
    (hres : ∀ kv ∈ theta, slookup theta kv.2 = none) :
    ∀ fuel n w, getFinalFormF fuel n theta = some w →
      w = finalOf theta n ∧ slookup theta w = none := by
  intro fuel n w h
  cases fuel with
  | zero => simp [getFinalFormF] at h
  | succ k =>
    cases hv : slookup theta n with
    | none =>
      simp [getFinalFormF, hv] at h
      subst h
      exact ⟨by simp [finalOf, hv], hv⟩
    | some v =>
      have hvn : slookup theta v = none := hres (n, v) (slookup_mem hv)
      simp [getFinalFormF, hv] at h
      cases k with
      | zero => simp [getFinalFormF] at h
      | succ k2 =>
        simp [getFinalFormF, hvn] at h
        subst h
        exact ⟨by simp [finalOf, hv], hvn⟩

/-- Unfolding of `gfpTerms` on a function-tagged head. -/
theorem gfpTerms_cons_fn (fuel : Nat) (constants2 variables2 : List String) (theta : Subst)
    (nm tg : String) (ng : Bool) (mts ns2 : List Pred) :
    gfpTerms (fuel + 1) constants2 variables2 (Pred.mk nm tg ng mts FUNCTION_TYPE :: ns2) theta =
      match getFinalPredicate fuel constants2 variables2 (Pred.mk nm tg ng mts FUNCTION_TYPE) theta with
      | none => none
      | some ff => (gfpTerms fuel constants2 variables2 ns2 theta).map (ff :: ·) := rfl

/-- The idempotence induction: over a fully resolved substitution whose
effect on the processed list succeeded, re-processing the output
reproduces it, provided every term is well formed to the same budget. -/
theorem gfpTerms_idem (constants2 variables2 : List String) (theta : Subst)
    (hres : ∀ kv ∈ theta, slookup theta kv.2 = none) :
    ∀ fuel ts ns, wfTermsF fuel constants2 variables2 theta ts = true →
      gfpTerms fuel constants2 variables2 ts theta = some ns →
      gfpTerms fuel constants2 variables2 ns theta = some ns := by
  intro fuel
  induction fuel using Nat.strong_induction_on with
  | _ fuel ih =>
    intro ts ns hwf h1
    cases fuel with
    | zero => simp [gfpTerms] at h1
    | succ m =>
      cases ts with
      | nil =>
        simp [gfpTerms] at h1
        subst h1
        simp [gfpTerms]
      | cons t rest =>
        have hwf2 : wfTermF m constants2 variables2 theta t = true
            ∧ wfTermsF m constants2 variables2 theta rest = true := by
          simpa [wfTermsF] using hwf
        by_cases hc : (t.type == CONSTANT_TYPE) = true
        · -- constants pass through unchanged
          simp only [gfpTerms, hc, if_pos] at h1
          cases h2 : gfpTerms m constants2 variables2 rest theta with
          | none => rw [h2] at h1; simp at h1
          | some ns2 =>
            rw [h2] at h1
            simp at h1
            subst h1
            have hrec := ih m (by omega) rest ns2 hwf2.2 h2
            simp [gfpTerms, hc, hrec]
        · by_cases hv : (t.type == VARIABLE_TYPE) = true
          · -- the variable is replaced by its final form, a declared symbol
            simp only [gfpTerms, hc, hv, if_neg, if_pos] at h1
            cases hff : getFinalFormF m t.name theta with
            | none => rw [hff] at h1; simp at h1
            | some w =>
              rw [hff] at h1
              have hchar := getFinalFormF_resolved hres m t.name w hff
              have hm1 : 1 ≤ m := getFinalFormF_pos hff
              have hwmem : constants2.contains (finalOf theta t.name) = true
                  ∨ variables2.contains (finalOf theta t.name) = true := by
                have := hwf2.1
                cases m with
                | zero => omega
                | succ m2 =>
                  simp [wfTermF, hc, hv] at this
                  rcases this with h | h
                  · exact Or.inl (by simpa using h)
                  · exact Or.inr (by simpa using h)
              by_cases hcs : constants2.contains w = true
              · simp only [hcs, if_pos] at h1
                cases h2 : gfpTerms m constants2 variables2 rest theta with
                | none => rw [h2] at h1; simp at h1
                | some ns2 =>
                  rw [h2] at h1
                  simp at h1
                  subst h1
                  have hrec := ih m (by omega) rest ns2 hwf2.2 h2
                  simp [gfpTerms, Pred.type, CONSTANT_TYPE, hrec]
              · by_cases hvs : variables2.contains w = true
                · simp only [hcs, hvs, if_neg, if_pos] at h1
                  cases h2 : gfpTerms m constants2 variables2 rest theta with
                  | none => rw [h2] at h1; simp at h1
                  | some ns2 =>
                    rw [h2] at h1
                    simp at h1
                    subst h1
                    have hrec := ih m (by omega) rest ns2 hwf2.2 h2
                    have hffw : getFinalFormF m w theta = some w :=
                      getFinalFormF_unbound hchar.2 m hm1
                    have hcs2 : w ∉ constants2 := by simpa using hcs
                    have hvs2 : w ∈ variables2 := by simpa using hvs
                    simp [gfpTerms, Pred.type, CONSTANT_TYPE, VARIABLE_TYPE, Pred.name,
                      hffw, hcs2, hvs2, hrec]
                · -- excluded by well-formedness
                  rw [hchar.1] at hcs hvs
                  rcases hwmem with h | h
                  · exact absurd h hcs
                  · exact absurd h hvs
          · by_cases hf : (t.type == FUNCTION_TYPE) = true
            · -- function terms are rewritten recursively
              simp only [gfpTerms, hc, hv, hf, if_neg, if_pos] at h1
              cases hgp : getFinalPredicate m constants2 variables2 t theta with
              | none => rw [hgp] at h1; simp at h1
              | some ff =>
                rw [hgp] at h1
                cases h2 : gfpTerms m constants2 variables2 rest theta with
                | none => rw [h2] at h1; simp at h1
                | some ns2 =>
                  rw [h2] at h1
                  simp at h1
                  subst h1
                  have hrec := ih m (by omega) rest ns2 hwf2.2 h2
                  cases m with
                  | zero => simp [getFinalPredicate] at hgp
                  | succ m2 =>
                    have hwfts : wfTermsF m2 constants2 variables2 theta t.terms = true := by
                      have := hwf2.1
                      simp [wfTermF, hc, hv, hf] at this
                      exact this
                    simp only [getFinalPredicate] at hgp
                    cases hts : gfpTerms m2 constants2 variables2 t.terms theta with
                    | none => rw [hts] at hgp; simp at hgp
                    | some mts =>
                      rw [hts] at hgp
                      simp at hgp
                      have hmts := ih m2 (by omega) t.terms mts hwfts hts
                      subst hgp
                      have hf2 : t.type = FUNCTION_TYPE := by simpa using hf
                      simp only [hf2]
                      rw [gfpTerms_cons_fn]
                      have hff2 : getFinalPredicate (m2 + 1) constants2 variables2
                          (Pred.mk ((mts.foldl (fun acc t2 => acc ++ " " ++ t2.name)
                            (t.nameTag ++ "(")) ++ " )") t.nameTag t.negated mts FUNCTION_TYPE)
                          theta =
                          some (Pred.mk ((mts.foldl (fun acc t2 => acc ++ " " ++ t2.name)
                            (t.nameTag ++ "(")) ++ " )") t.nameTag t.negated mts FUNCTION_TYPE) := by
                        simp [getFinalPredicate, Pred.terms, Pred.nameTag, Pred.negated,
                          Pred.type, hmts]
                      simp [hff2, hrec]
            · -- remaining type tags are excluded by well-formedness
              have := hwf2.1
              cases m with
              | zero => simp [wfTermF] at this
              | succ m2 => simp [wfTermF, hc, hv, hf] at this

/-- C9, counterexample: the substitution `{x: "f(a)"}` is fully resolved
(its only bound value is not itself bound), yet applying it twice to
`P(x)` differs from applying it once: the first application re-parses
`"f(a)"` into a function term named `"f(a)"`, and the second application
rebuilds that subterm's display name as `"f( a )"`, changing the term. -/
theorem getFinalPredicate_not_idempotent :
    slookup thetaFun "f(a)" = none
      ∧ getFinalPredicate 6 ["a"] ["x"] Px thetaFun = some gfpOnce
      ∧ getFinalPredicate 6 ["a"] ["x"] gfpOnce thetaFun = some gfpTwice
      ∧ gfpOnce ≠ gfpTwice :=
  ⟨by decide, by decide, by decide, by decide⟩

/-- C9, amended: applying a fully-resolved substitution twice yields the
term of the single application, provided additionally that every final
form reached from the term's variables is a declared constant or variable
symbol — so that no bound value is a function-term string, which the
counterexample shows would break idempotence through the display-name
rebuild.  Formally: if the substitution is fully resolved, the term is
well formed for the budget, and one application succeeds with result `q`,
then applying the substitution to `q` returns `q` itself. -/
theorem getFinalPredicate_idempotent (fuel : Nat) (constants2 variables2 : List String)
    (theta : Subst) (p q : Pred)
    (hres : ∀ kv ∈ theta, slookup theta kv.2 = none)
    (hwf : wfTermsF fuel constants2 variables2 theta p.terms = true)
    (h1 : getFinalPredicate (fuel + 1) constants2 variables2 p theta = some q) :
    getFinalPredicate (fuel + 1) constants2 variables2 q theta = some q := by
  simp only [getFinalPredicate] at h1
  cases hts : gfpTerms fuel constants2 variables2 p.terms theta with
  | none => rw [hts] at h1; simp at h1
  | some ns =>
    rw [hts] at h1
    simp at h1
    have hns := gfpTerms_idem constants2 variables2 theta hres fuel p.terms ns hwf hts
    subst h1
    simp [getFinalPredicate, Pred.terms, Pred.nameTag, Pred.negated, Pred.type, hns]

/-- C9, witness for the amended theorem: under `{x: a}` with `a` a
declared constant, one application sends `P(x)` to `P( a )` and a second
application fixes it. -/
theorem getFinalPredicate_idempotent_witness :
    getFinalPredicate 6 ["a"] ["x", "y"] gfpFix [("x", "a")] = some gfpFix := by
  have h := getFinalPredicate_idempotent 5 ["a"] ["x", "y"] [("x", "a")] Px gfpFix
    (by decide) (by decide) (by decide)
  exact h

/-- Reading an appended store below the old length sees the old contents. -/
theorem readS_append {s : Store} {x : Subst} {b : Nat} (h : b < s.length) :
    readS (s ++ [x]) b = readS s b := by
  simp [readS, List.getElem?_append_left h]

/-- Writing one address leaves every other address unchanged. -/
theorem readS_writeS_ne {s : Store} {a b : Nat} {v : Subst} (h : a ≠ b) :
    readS (writeS s a v) b = readS s b := by
  simp [readS, writeS, List.getElem?_set_ne h]

/-- `unify_variableH` preserves the store's length and every address
other than the dict it was handed. -/
theorem unify_variableH_store (v t2 : Pred) (aTheta : Nat) (s : Store) :
    ((unify_variableH v t2 aTheta s).2).length = s.length
      ∧ ∀ b, b ≠ aTheta → readS ((unify_variableH v t2 aTheta s).2) b = readS s b := by
  unfold unify_variableH
  split
  · exact ⟨rfl, fun b _ => rfl⟩
  · split
    · exact ⟨rfl, fun b _ => rfl⟩
    · refine ⟨List.length_set .., fun b hb => readS_writeS_ne fun h => hb h.symm⟩

/-- `unifyInnerH` only grows the store and preserves all pre-existing
addresses, assuming `unifyH` at the same budget does. -/
theorem unifyInnerH_store (fuel : Nat)
    (hU : ∀ (t1 t2 : Pred) (aOld : Nat) (s : Store),
      s.length ≤ ((unifyH fuel t1 t2 aOld s).2).length
        ∧ ∀ b < s.length, readS ((unifyH fuel t1 t2 aOld s).2) b = readS s b) :
    ∀ (o : Pred) (is2 : List Pred) (aTheta : Nat) (s : Store),
      s.length ≤ ((unifyInnerH fuel o is2 aTheta s).2).length
        ∧ ∀ b < s.length, readS ((unifyInnerH fuel o is2 aTheta s).2) b = readS s b := by
  intro o is2
  induction is2 with
  | nil =>
    intro aTheta s
    simp only [unifyInnerH]
    exact ⟨Nat.le_refl _, fun b _ => trivial⟩
  | cons i rest ih =>
    intro aTheta s
    have hu := hU i o aTheta s
    simp only [unifyInnerH]
    cases hres : unifyH fuel i o aTheta s with
    | mk r s2 =>
      rw [hres] at hu
      cases r with
      | ok r2 =>
        dsimp only
        have hrec := ih s2.length (s2 ++ [dunion (readS s2 aTheta) r2])
        constructor
        · calc s.length ≤ s2.length := hu.1
            _ ≤ (s2 ++ [dunion (readS s2 aTheta) r2]).length := by simp
            _ ≤ _ := hrec.1
        · intro b hb
          have hb2 : b < s2.length := Nat.lt_of_lt_of_le hb hu.1
          have hb3 : b < (s2 ++ [dunion (readS s2 aTheta) r2]).length := by
            simp
            omega
          rw [hrec.2 b hb3, readS_append hb2, hu.2 b hb]
      | fail => exact hu
      | err => exact hu

/-- `unifyOuterH` only grows the store and preserves all pre-existing
addresses, assuming `unifyH` at the same budget does. -/
theorem unifyOuterH_store (fuel : Nat)
    (hU : ∀ (t1 t2 : Pred) (aOld : Nat) (s : Store),
      s.length ≤ ((unifyH fuel t1 t2 aOld s).2).length
        ∧ ∀ b < s.length, readS ((unifyH fuel t1 t2 aOld s).2) b = readS s b) :
    ∀ (os inners : List Pred) (aTheta : Nat) (s : Store),
      s.length ≤ ((unifyOuterH fuel os inners aTheta s).2).length
        ∧ ∀ b < s.length, readS ((unifyOuterH fuel os inners aTheta s).2) b = readS s b := by
  intro os
  induction os with
  | nil =>
    intro inners aTheta s
    simp only [unifyOuterH]
    exact ⟨Nat.le_refl _, fun b _ => trivial⟩
  | cons o rest ih =>
    intro inners aTheta s
    have hin := unifyInnerH_store fuel hU o inners aTheta s
    simp only [unifyOuterH]
    cases hres : unifyInnerH fuel o inners aTheta s with
    | mk r s2 =>
      rw [hres] at hin
      cases r with
      | okAddr a2 =>
        dsimp only
        have hrec := ih inners a2 s2
        refine ⟨Nat.le_trans hin.1 hrec.1, fun b hb => ?_⟩
        have hb2 : b < s2.length := Nat.lt_of_lt_of_le hb hin.1
        rw [hrec.2 b hb2, hin.2 b hb]
      | fail => exact hin
      | err => exact hin

/-- `unifyH` only grows the store and preserves every address that
existed before it ran: all its writes go to dicts it allocated itself. -/
theorem unifyH_store :
    ∀ (fuel : Nat) (t1 t2 : Pred) (aOld : Nat) (s : Store),
      s.length ≤ ((unifyH fuel t1 t2 aOld s).2).length
        ∧ ∀ b < s.length, readS ((unifyH fuel t1 t2 aOld s).2) b = readS s b := by
  intro fuel
  induction fuel with
  | zero =>
    intro t1 t2 aOld s
    simp only [unifyH]
    exact ⟨Nat.le_refl _, fun b _ => trivial⟩
  | succ n ih =>
    intro t1 t2 aOld s
    simp only [unifyH]
    have happ : ∀ b < s.length, readS (s ++ [readS s aOld]) b = readS s b :=
      fun b hb => readS_append hb
    have happlen : s.length ≤ (s ++ [readS s aOld]).length := by simp
    split
    · exact ⟨happlen, happ⟩
    · split
      · -- t1 is a variable: unify_variable writes only to the copy
        have hv := unify_variableH_store t1 t2 s.length (s ++ [readS s aOld])
        cases hres : unify_variableH t1 t2 s.length (s ++ [readS s aOld]) with
        | mk r s2 =>
          rw [hres] at hv
          have base : s.length ≤ s2.length ∧ ∀ b < s.length, readS s2 b = readS s b := by
            constructor
            · rw [hv.1]; simp
            · intro b hb
              rw [hv.2 b (by omega), happ b hb]
          cases r with
          | okAddr a2 => exact base
          | fail => exact base
          | err => exact base
      · split
        · -- t2 is a variable
          have hv := unify_variableH_store t2 t1 s.length (s ++ [readS s aOld])
          cases hres : unify_variableH t2 t1 s.length (s ++ [readS s aOld]) with
          | mk r s2 =>
            rw [hres] at hv
            have base : s.length ≤ s2.length ∧ ∀ b < s.length, readS s2 b = readS s b := by
              constructor
              · rw [hv.1]; simp
              · intro b hb
                rw [hv.2 b (by omega), happ b hb]
            cases r with
            | okAddr a2 => exact base
            | fail => exact base
            | err => exact base
        · split
          · -- both are functions: the argument loops
            split
            · exact ⟨happlen, happ⟩
            · split
              · exact ⟨happlen, happ⟩
              · split
                · exact ⟨happlen, happ⟩
                · have ho := unifyOuterH_store n ih t1.terms t2.terms s.length
                    (s ++ [readS s aOld])
                  refine ⟨Nat.le_trans happlen ho.1, fun b hb => ?_⟩
                  have hb2 : b < (s ++ [readS s aOld]).length := by
                    simp
                    omega
                  rw [ho.2 b hb2, happ b hb]
          · exact ⟨happlen, happ⟩

/-- C10: `unify(t1, t2, oldTheta)` never mutates the dict its caller
passed in: at store level, after the call (whatever its outcome) the
caller's dict holds exactly the bindings it held before, because the
first statement `theta = oldTheta.copy()` allocates a fresh dict and
every write in the call tree targets dicts allocated during the call. -/
theorem unifyH_preserves_caller_dict (fuel : Nat) (t1 t2 : Pred) (aOld : Nat) (s : Store)
    (h : aOld < s.length) :
    readS ((unifyH fuel t1 t2 aOld s).2) aOld = readS s aOld :=
  (unifyH_store fuel t1 t2 aOld s).2 aOld h

/-- C10, witness: unifying the variable `x` against the constant `a`
starting from the dict `{y: b}` at address 0 binds `x` in the copy and
leaves the caller's dict exactly `{y: b}`. -/
theorem unifyH_preserves_caller_dict_witness :
    0 < ([[("y", "b")]] : Store).length
      ∧ readS ((unifyH 5 xv ca 0 [[("y", "b")]]).2) 0 = [("y", "b")] := by
  refine ⟨by decide, ?_⟩
  rw [unifyH_preserves_caller_dict 5 xv ca 0 [[("y", "b")]] (by decide)]
  rfl

/-- `Predicate.__eq__` is reflexive. -/
theorem predEq_refl (p : Pred) : predEq p p = true := by
  simp [predEq]

/-- `Predicate.__eq__` is transitive. -/
theorem predEq_trans {p q r : Pred} (h1 : predEq p q = true) (h2 : predEq q r = true) :
    predEq p r = true := by
  simp [predEq] at h1 h2 ⊢
  have e1 : p.name = q.name := by tauto
  have e2 : p.type = q.type := by tauto
  have e3 : p.negated = q.negated := by tauto
  have f1 : q.name = r.name := by tauto
  have f2 : q.type = r.type := by tauto
  have f3 : q.negated = r.negated := by tauto
  simp [e1.trans f1, e2.trans f2, e3.trans f3]

/-- The truncated pairwise literal comparison of `Clause.__eq__` is
reflexive. -/
theorem zipAll_refl : ∀ (ps : List Pred) (k : Nat),
    ((ps.zip ps).take k).all (fun pq => predEq pq.1 pq.2) = true := by
  intro ps
  induction ps with
  | nil => intro k; simp
  | cons p rest ih =>
    intro k
    cases k with
    | zero => simp
    | succ k2 =>
      simp only [List.zip_cons_cons, List.take_succ_cons, List.all_cons, Bool.and_eq_true]
      exact ⟨predEq_refl p, ih k2⟩

/-- The truncated pairwise literal comparison of `Clause.__eq__` is
transitive over equal-length lists. -/
theorem zipAll_trans : ∀ (as2 bs cs : List Pred) (k : Nat),
    as2.length = bs.length → bs.length = cs.length →
    ((as2.zip bs).take k).all (fun pq => predEq pq.1 pq.2) = true →
    ((bs.zip cs).take k).all (fun pq => predEq pq.1 pq.2) = true →
    ((as2.zip cs).take k).all (fun pq => predEq pq.1 pq.2) = true := by
  intro as2
  induction as2 with
  | nil => intro bs cs k _ _ _ _; simp
  | cons a rest ih =>
    intro bs cs k h1 h2 hab hbc
    cases bs with
    | nil => simp at h1
    | cons b bs2 =>
      cases cs with
      | nil => simp at h2
      | cons c cs2 =>
        cases k with
        | zero => simp
        | succ k2 =>
          simp only [List.zip_cons_cons, List.take_succ_cons, List.all_cons,
            Bool.and_eq_true] at hab hbc ⊢
          have h1b : rest.length = bs2.length := by simpa using h1
          have h2b : bs2.length = cs2.length := by simpa using h2
          exact ⟨predEq_trans hab.1 hbc.1, ih bs2 cs2 k2 h1b h2b hab.2 hbc.2⟩

/-- `Clause.__eq__`, flattened: names equal, lengths equal, and the
pairwise comparison of all but the last literal. -/
theorem clauseEq_eq_true_iff (a b : Clause) : clauseEq a b = true ↔
    (a.name = b.name ∧ a.predicates.length = b.predicates.length ∧
      ((a.predicates.zip b.predicates).take (a.predicates.length - 1)).all
        (fun pq => predEq pq.1 pq.2) = true) := by
  unfold clauseEq
  split
  case isTrue h =>
    simp at h
    have ha2 : a.predicates = [] := by tauto
    have hb2 : b.predicates = [] := by tauto
    have hn : a.name = b.name := by tauto
    simp [hn, ha2, hb2]
  case isFalse h =>
    split
    case isTrue hn =>
      split
      case isTrue hl =>
        simp at hn hl
        constructor
        · intro hall
          exact ⟨hn, hl, hall⟩
        · intro hr
          exact hr.2.2
      case isFalse hl =>
        simp at hn hl
        constructor
        · intro hfalse
          simp at hfalse
        · intro hr
          exact absurd hr.2.1 hl
    case isFalse hn =>
      simp at hn
      constructor
      · intro hfalse
        simp at hfalse
      · intro hr
        exact absurd hr.1 hn

/-- `Clause.__eq__` is reflexive. -/
theorem clauseEq_refl (c : Clause) : clauseEq c c = true := by
  rw [clauseEq_eq_true_iff]
  exact ⟨rfl, rfl, zipAll_refl _ _⟩

/-- `Clause.__eq__` is transitive. -/
theorem clauseEq_trans {a b c : Clause} (h1 : clauseEq a b = true)
    (h2 : clauseEq b c = true) : clauseEq a c = true := by
  rw [clauseEq_eq_true_iff] at h1 h2 ⊢
  refine ⟨h1.1.trans h2.1, h1.2.1.trans h2.2.1, ?_⟩
  have hk : a.predicates.length - 1 = b.predicates.length - 1 := by rw [h1.2.1]
  refine zipAll_trans a.predicates b.predicates c.predicates _ h1.2.1 h2.2.1 h1.2.2 ?_
  rw [hk]
  exact h2.2.2

/-- The probe `Clause("", []) in resolvents` matches exactly the clauses
with no literals and the empty display name. -/
theorem clauseEq_empty_iff (c : Clause) :
    clauseEq c emptyClause = true ↔ (c.predicates = [] ∧ c.name = "") := by
  rw [clauseEq_eq_true_iff]
  constructor
  · intro h
    exact ⟨List.length_eq_zero.mp (by simpa [emptyClause] using h.2.1),
      by simpa [emptyClause] using h.1⟩
  · intro h
    simp [emptyClause, h.1, h.2]

/-- Membership in a set after one insertion. -/
theorem clMem_setInsert (c d : Clause) (s : List Clause) :
    clMem c (setInsert s d) = (clMem c s || clauseEq c d) := by
  unfold setInsert
  split
  case isTrue h =>
    cases hc : clauseEq c d with
    | false => simp
    | true =>
      simp only [Bool.or_true]
      unfold clMem at h ⊢
      simp only [List.any_eq_true] at h ⊢
      obtain ⟨e, he, hde⟩ := h
      exact ⟨e, he, clauseEq_trans hc hde⟩
  case isFalse h =>
    unfold clMem
    simp

/-- Membership in a fold of insertions: the element is equal (under
`Clause.__eq__`) to something already present or to something inserted. -/
theorem clMem_foldl (c : Clause) : ∀ (l s : List Clause),
    clMem c (l.foldl setInsert s) = (clMem c s || l.any fun d => clauseEq c d) := by
  intro l
  induction l with
  | nil => intro s; simp
  | cons d rest ih =>
    intro l2
    simp only [List.foldl_cons, List.any_cons]
    rw [ih (setInsert l2 d), clMem_setInsert]
    cases clMem c l2 <;> cases clauseEq c d <;> cases rest.any fun e => clauseEq c e <;> simp

/-- Every list element of a fold of insertions was already present or was
one of the inserted clauses. -/
theorem mem_foldl_setInsert : ∀ (l s : List Clause) (e : Clause),
    e ∈ l.foldl setInsert s → e ∈ s ∨ e ∈ l := by
  intro l
  induction l with
  | nil => intro s e h; exact Or.inl h
  | cons d rest ih =>
    intro s e h
    simp only [List.foldl_cons] at h
    rcases ih (setInsert s d) e h with h2 | h2
    · unfold setInsert at h2
      split at h2
      · exact Or.inl h2
      · rcases List.mem_append.mp h2 with h3 | h3
        · exact Or.inl h3
        · simp at h3
          subst h3
          exact Or.inr (List.mem_cons_self _ _)
    · exact Or.inr (List.mem_cons_of_mem _ h2)

/-- `mapM` over `Option` returns the empty list only on the empty list. -/
theorem mapM_eq_some_nil {f : Pred → Option Pred} {l : List Pred}
    (h : l.mapM f = some []) : l = [] := by
  cases l with
  | nil => rfl
  | cons a rest =>
    rw [List.mapM_cons] at h
    cases hfa : f a with
    | none => simp [hfa] at h
    | some v =>
      simp only [hfa] at h
      cases hrest : rest.mapM f with
      | none => simp only [hrest] at h; simp at h
      | some vs => simp only [hrest] at h; simp at h

/-- One step of `resolve`'s pair loop preserves the invariant that every
constructed resolvent with no literals has the empty display name (the
name is accumulated from exactly the kept literals). -/
theorem resolveStep_empty_name (fuel : Nat) (constants2 variables2 : List String)
    (c1 c2 : Clause) (st st2 : Subst × List Clause) (pr : (Nat × Pred) × (Nat × Pred))
    (h : resolveStep fuel constants2 variables2 c1 c2 st pr = .ok st2)
    (hp : ∀ c ∈ st.2, c.predicates = [] → c.name = "") :
    ∀ c ∈ st2.2, c.predicates = [] → c.name = "" := by
  simp only [resolveStep] at h
  split at h
  · split at h
    · -- nullary branch
      simp at h
      subst h
      intro c hc hce
      rcases List.mem_append.mp hc with h2 | h2
      · exact hp c h2 hce
      · simp at h2
        subst h2
        simp at hce
        simp [hce, buildName]
    · -- unify branch: exception, sentinel, or a constructed resolvent
      split at h
      · simp at h
      · simp at h
        subst h
        exact hp
      · split at h
        · simp at h
        · rename_i newPreds hmap
          simp at h
          subst h
          intro c hc hce
          rcases List.mem_append.mp hc with h2 | h2
          · exact hp c h2 hce
          · simp at h2
            subst h2
            simp at hce
            rw [hce] at hmap
            have := mapM_eq_some_nil hmap
            simp [this, buildName]
  · simp at h
    subst h
    exact hp

/-- The pair loop of `resolve` preserves the empty-name invariant. -/
theorem foldlM_resolveStep_empty_name (fuel : Nat) (constants2 variables2 : List String)
    (c1 c2 : Clause) :
    ∀ (L : List ((Nat × Pred) × (Nat × Pred))) (st st2 : Subst × List Clause),
      L.foldlM (resolveStep fuel constants2 variables2 c1 c2) st = .ok st2 →
      (∀ c ∈ st.2, c.predicates = [] → c.name = "") →
      ∀ c ∈ st2.2, c.predicates = [] → c.name = "" := by
  intro L
  induction L with
  | nil =>
    intro st st2 h hp
    simp [List.foldlM_nil, pure, Except.pure] at h
    subst h
    exact hp
  | cons pr rest ih =>
    intro st st2 h hp
    rw [List.foldlM_cons] at h
    cases hstep : resolveStep fuel constants2 variables2 c1 c2 st pr with
    | error e => rw [hstep] at h; simp [Bind.bind, Except.bind] at h
    | ok stMid =>
      rw [hstep] at h
      simp only [Bind.bind, Except.bind] at h
      exact ih stMid st2 h
        (resolveStep_empty_name fuel constants2 variables2 c1 c2 st stMid pr hstep hp)

/-- Every clause returned by `resolve` is either a constructed resolvent
(whose display name is empty whenever its literal list is) or one of the
two parent clauses. -/
theorem resolve_empty_name (fuel : Nat) (constants2 variables2 : List String)
    (c1 c2 : Clause) (rs : List Clause)
    (h : resolve fuel constants2 variables2 c1 c2 = .ok rs) :
    ∀ c ∈ rs, (c.predicates = [] → c.name = "") ∨ c = c1 ∨ c = c2 := by
  unfold resolve at h
  cases hfold : (literalPairs c1 c2).foldlM
      (resolveStep fuel constants2 variables2 c1 c2) ([], []) with
  | error e => rw [hfold] at h; cases h
  | ok st =>
    rw [hfold] at h
    simp at h
    subst h
    intro c hc
    rcases List.mem_append.mp hc with h2 | h2
    · exact Or.inl (foldlM_resolveStep_empty_name fuel constants2 variables2 c1 c2
        (literalPairs c1 c2) ([], []) st hfold (by simp) c h2)
    · simp at h2
      rcases h2 with h3 | h3
      · exact Or.inr (Or.inl h3)
      · exact Or.inr (Or.inr h3)

/-- Both components of a pair produced by `pairList` belong to the list. -/
theorem pairList_mem : ∀ (l : List Clause) (pr : Clause × Clause),
    pr ∈ pairList l → pr.1 ∈ l ∧ pr.2 ∈ l := by
  intro l
  induction l with
  | nil => intro pr h; simp [pairList] at h
  | cons c rest ih =>
    intro pr h
    simp only [pairList] at h
    rcases List.mem_append.mp h with h2 | h2
    · obtain ⟨d, hd, heq⟩ := List.mem_map.mp h2
      subst heq
      exact ⟨List.mem_cons_self _ _, List.mem_cons_of_mem _ hd⟩
    · have h3 := ih pr h2
      exact ⟨List.mem_cons_of_mem _ h3.1, List.mem_cons_of_mem _ h3.2⟩

/-- Every clause among a round's resolvents comes from the `resolve` call
of one of the round's pairs. -/
theorem roundResolvents_mem (fuel : Nat) (constants2 variables2 : List String) :
    ∀ (L : List (Clause × Clause)) (rs : List Clause),
      roundResolvents fuel constants2 variables2 L = .ok rs →
      ∀ c ∈ rs, ∃ pr ∈ L, ∃ seg, resolve fuel constants2 variables2 pr.1 pr.2 = .ok seg
        ∧ c ∈ seg := by
  intro L
  induction L with
  | nil =>
    intro rs h c hc
    simp [roundResolvents] at h
    subst h
    simp at hc
  | cons pr rest ih =>
    intro rs h c hc
    simp only [roundResolvents] at h
    cases hseg : resolve fuel constants2 variables2 pr.1 pr.2 with
    | error e => rw [hseg] at h; cases h
    | ok seg =>
      rw [hseg] at h
      cases hmore : roundResolvents fuel constants2 variables2 rest with
      | error e => rw [hmore] at h; cases h
      | ok more =>
        rw [hmore] at h
        simp at h
        subst h
        rcases List.mem_append.mp hc with h2 | h2
        · exact ⟨pr, List.mem_cons_self _ _, seg, hseg, h2⟩
        · obtain ⟨pr2, hpr2, seg2, hseg2, hc2⟩ := ih more hmore c h2
          exact ⟨pr2, List.mem_cons_of_mem _ hpr2, seg2, hseg2, hc2⟩

/-- If some resolvent of the round satisfies the code's empty-clause test,
the round exits through the `print("no")` branch. -/
theorem roundGo_unsat (fuel : Nat) (constants2 variables2 : List String) :
    ∀ (L : List (Clause × Clause)) (cur acc rs : List Clause),
      roundResolvents fuel constants2 variables2 L = .ok rs →
      (∃ c ∈ rs, clauseEq c emptyClause = true) →
      roundGo fuel constants2 variables2 L cur acc = .unsat := by
  intro L
  induction L with
  | nil =>
    intro cur acc rs h hex
    simp [roundResolvents] at h
    subst h
    simp at hex
  | cons pr rest ih =>
    intro cur acc rs h hex
    simp only [roundResolvents] at h
    cases hseg : resolve fuel constants2 variables2 pr.1 pr.2 with
    | error e => rw [hseg] at h; cases h
    | ok seg =>
      rw [hseg] at h
      cases hmore : roundResolvents fuel constants2 variables2 rest with
      | error e => rw [hmore] at h; cases h
      | ok more =>
        rw [hmore] at h
        simp at h
        subst h
        simp only [roundGo, hseg]
        cases hdet : seg.any fun c => clauseEq c emptyClause with
        | true => simp
        | false =>
          simp only [Bool.false_eq_true, if_false]
          apply ih _ _ more hmore
          obtain ⟨c, hc, hce⟩ := hex
          rcases List.mem_append.mp hc with h2 | h2
          · exfalso
            have hany : seg.any (fun c2 => clauseEq c2 emptyClause) = true :=
              List.any_eq_true.mpr ⟨c, h2, hce⟩
            rw [hdet] at hany
            cases hany
          · exact ⟨c, h2, hce⟩

/-- If no resolvent of the round satisfies the empty-clause test, the
round runs to its end and applies the subset test to the accumulated
`new_clause` set. -/
theorem roundGo_sat_cont (fuel : Nat) (constants2 variables2 : List String) :
    ∀ (L : List (Clause × Clause)) (cur acc rs : List Clause),
      roundResolvents fuel constants2 variables2 L = .ok rs →
      (∀ c ∈ rs, clauseEq c emptyClause = false) →
      ∃ acc2, roundAccum fuel constants2 variables2 L acc = .ok acc2
        ∧ roundGo fuel constants2 variables2 L cur acc =
            (if clSubset acc2 cur = true then .sat else .cont (clUnion cur acc2) acc2) := by
  intro L
  induction L with
  | nil =>
    intro cur acc rs h _
    refine ⟨acc, by simp [roundAccum], ?_⟩
    simp [roundGo]
  | cons pr rest ih =>
    intro cur acc rs h hno
    simp only [roundResolvents] at h
    cases hseg : resolve fuel constants2 variables2 pr.1 pr.2 with
    | error e => rw [hseg] at h; cases h
    | ok seg =>
      rw [hseg] at h
      cases hmore : roundResolvents fuel constants2 variables2 rest with
      | error e => rw [hmore] at h; cases h
      | ok more =>
        rw [hmore] at h
        simp at h
        subst h
        have hdet : (seg.any fun c => clauseEq c emptyClause) = false := by
          cases hany : seg.any fun c => clauseEq c emptyClause with
          | false => rfl
          | true =>
            obtain ⟨c, hc, hce⟩ := List.any_eq_true.mp hany
            have := hno c (List.mem_append.mpr (Or.inl hc))
            rw [this] at hce
            cases hce
        have hno2 : ∀ c ∈ more, clauseEq c emptyClause = false :=
          fun c hc => hno c (List.mem_append.mpr (Or.inr hc))
        obtain ⟨acc2, ha2, hgo⟩ := ih cur (clUnion acc (setify seg)) more hmore hno2
        refine ⟨acc2, ?_, ?_⟩
        · simp only [roundAccum, hseg]
          exact ha2
        · simp only [roundGo, hseg, hdet, Bool.false_eq_true, if_false]
          exact hgo

/-- Every list element of the accumulated `new_clause` set came from the
initial set or from one of the round's resolvents. -/
theorem roundAccum_elems (fuel : Nat) (constants2 variables2 : List String) :
    ∀ (L : List (Clause × Clause)) (acc acc2 rs : List Clause),
      roundAccum fuel constants2 variables2 L acc = .ok acc2 →
      roundResolvents fuel constants2 variables2 L = .ok rs →
      ∀ e ∈ acc2, e ∈ acc ∨ e ∈ rs := by
  intro L
  induction L with
  | nil =>
    intro acc acc2 rs h hr e he
    simp [roundAccum] at h
    subst h
    exact Or.inl he
  | cons pr rest ih =>
    intro acc acc2 rs h hr e he
    simp only [roundAccum] at h
    simp only [roundResolvents] at hr
    cases hseg : resolve fuel constants2 variables2 pr.1 pr.2 with
    | error er => rw [hseg] at h; cases h
    | ok seg =>
      rw [hseg] at h hr
      cases hmore : roundResolvents fuel constants2 variables2 rest with
      | error er => rw [hmore] at hr; cases hr
      | ok more =>
        rw [hmore] at hr
        simp at hr
        subst hr
        rcases ih (clUnion acc (setify seg)) acc2 more h hmore e he with h2 | h2
        · rcases mem_foldl_setInsert (setify seg) acc e h2 with h3 | h3
          · exact Or.inl h3
          · rcases mem_foldl_setInsert seg [] e h3 with h4 | h4
            · simp at h4
            · exact Or.inr (List.mem_append.mpr (Or.inl h4))
        · exact Or.inr (List.mem_append.mpr (Or.inr h2))

/-- Set membership in `new_clause` is preserved through the rest of a
round. -/
theorem roundAccum_mono (fuel : Nat) (constants2 variables2 : List String) (c : Clause) :
    ∀ (L : List (Clause × Clause)) (acc acc2 : List Clause),
      clMem c acc = true →
      roundAccum fuel constants2 variables2 L acc = .ok acc2 →
      clMem c acc2 = true := by
  intro L
  induction L with
  | nil =>
    intro acc acc2 hm h
    simp [roundAccum] at h
    subst h
    exact hm
  | cons pr rest ih =>
    intro acc acc2 hm h
    simp only [roundAccum] at h
    cases hseg : resolve fuel constants2 variables2 pr.1 pr.2 with
    | error er => rw [hseg] at h; cases h
    | ok seg =>
      rw [hseg] at h
      refine ih (clUnion acc (setify seg)) acc2 ?_ h
      unfold clUnion
      rw [clMem_foldl]
      simp [hm]

/-- Every resolvent of the round is a set member of the accumulated
`new_clause` set the round ends with. -/
theorem roundAccum_of_rs (fuel : Nat) (constants2 variables2 : List String) (c : Clause) :
    ∀ (L : List (Clause × Clause)) (acc acc2 rs : List Clause),
      roundResolvents fuel constants2 variables2 L = .ok rs →
      roundAccum fuel constants2 variables2 L acc = .ok acc2 →
      c ∈ rs →
      clMem c acc2 = true := by
  intro L
  induction L with
  | nil =>
    intro acc acc2 rs hr h hc
    simp [roundResolvents] at hr
    subst hr
    simp at hc
  | cons pr rest ih =>
    intro acc acc2 rs hr h hc
    simp only [roundResolvents] at hr
    simp only [roundAccum] at h
    cases hseg : resolve fuel constants2 variables2 pr.1 pr.2 with
    | error er => rw [hseg] at hr; cases hr
    | ok seg =>
      rw [hseg] at h hr
      cases hmore : roundResolvents fuel constants2 variables2 rest with
      | error er => rw [hmore] at hr; cases hr
      | ok more =>
        rw [hmore] at hr
        simp at hr
        subst hr
        rcases List.mem_append.mp hc with h2 | h2
        · have hsetify : clMem c (setify seg) = true := by
            unfold setify
            rw [clMem_foldl]
            have hany : (seg.any fun d => clauseEq c d) = true :=
              List.any_eq_true.mpr ⟨c, h2, clauseEq_refl c⟩
            simp [clMem, hany]
          refine roundAccum_mono fuel constants2 variables2 c rest _ acc2 ?_ h
          unfold clUnion
          rw [clMem_foldl]
          have hany2 : ((setify seg).any fun d => clauseEq c d) = true := hsetify
          simp [hany2]
        · exact ih (clUnion acc (setify seg)) acc2 more hmore h h2

/-- C3: in a saturation round of `resolver` on the state
`(current_clauses, new_clause)` whose resolvent computation raises no
exception, and whose state satisfies the loop's invariants (every known
empty clause carries the empty display name, and the carried-over
`new_clause` set is contained in `current_clauses`): if the round's
resolvents include an empty clause the engine prints "no" and terminates
(UNSAT); else if the round's resolvents are all already known the engine
prints "yes" and terminates (SAT); otherwise the resolvents are unioned
into the clause set and the loop continues with another round. -/
theorem resolver_round_spec (fuel : Nat) (constants2 variables2 : List String)
    (current acc rs : List Clause)
    (hrs : roundResolvents fuel constants2 variables2 (pairList current) = .ok rs)
    (hinv : ∀ c ∈ current, c.predicates = [] → c.name = "")
    (hacc : clSubset acc current = true) :
    ((∃ c ∈ rs, c.predicates = []) →
        resolverRound fuel constants2 variables2 current acc = .unsat
          ∧ ∀ r : Nat, resolverLoop (r + 1) fuel constants2 variables2 current acc = .unsatNo)
    ∧ ((∀ c ∈ rs, c.predicates ≠ []) → (∀ c ∈ rs, clMem c current = true) →
        resolverRound fuel constants2 variables2 current acc = .sat
          ∧ ∀ r : Nat, resolverLoop (r + 1) fuel constants2 variables2 current acc = .satYes)
    ∧ ((∀ c ∈ rs, c.predicates ≠ []) → (∃ c ∈ rs, clMem c current = false) →
        ∃ acc2, roundAccum fuel constants2 variables2 (pairList current) acc = .ok acc2
          ∧ resolverRound fuel constants2 variables2 current acc
              = .cont (clUnion current acc2) acc2
          ∧ ∀ r : Nat, resolverLoop (r + 1) fuel constants2 variables2 current acc
              = resolverLoop r fuel constants2 variables2 (clUnion current acc2) acc2) := by
  refine ⟨?_, ?_, ?_⟩
  · -- an empty resolvent: the round exits with "no"
    intro hex
    obtain ⟨c, hc, hce⟩ := hex
    obtain ⟨pr, hpr, seg, hseg, hcseg⟩ :=
      roundResolvents_mem fuel constants2 variables2 (pairList current) rs hrs c hc
    have hpm := pairList_mem current pr hpr
    have hname : c.name = "" := by
      rcases resolve_empty_name fuel constants2 variables2 pr.1 pr.2 seg hseg c hcseg
        with h | h | h
      · exact h hce
      · subst h
        exact hinv _ hpm.1 hce
      · subst h
        exact hinv _ hpm.2 hce
    have hEq : clauseEq c emptyClause = true := (clauseEq_empty_iff c).mpr ⟨hce, hname⟩
    have hun := roundGo_unsat fuel constants2 variables2 (pairList current) current acc rs hrs
      ⟨c, hc, hEq⟩
    refine ⟨hun, fun r => ?_⟩
    simp [resolverLoop, resolverRound, hun]
  · -- no empty resolvent and nothing new: the round exits with "yes"
    intro h1 h2
    have hnoEmpty : ∀ c ∈ rs, clauseEq c emptyClause = false := by
      intro c hc
      cases hq : clauseEq c emptyClause with
      | false => rfl
      | true => exact absurd ((clauseEq_empty_iff c).mp hq).1 (h1 c hc)
    obtain ⟨acc2, ha2, hgo⟩ :=
      roundGo_sat_cont fuel constants2 variables2 (pairList current) current acc rs hrs hnoEmpty
    have hsubset : clSubset acc2 current = true := by
      unfold clSubset
      rw [List.all_eq_true]
      intro e he
      rcases roundAccum_elems fuel constants2 variables2 (pairList current) acc acc2 rs
        ha2 hrs e he with h3 | h3
      · unfold clSubset at hacc
        rw [List.all_eq_true] at hacc
        exact hacc e h3
      · exact h2 e h3
    rw [hsubset] at hgo
    simp at hgo
    refine ⟨hgo, fun r => ?_⟩
    simp [resolverLoop, resolverRound, hgo]
  · -- a genuinely new resolvent: the loop continues with the union
    intro h1 hnew
    have hnoEmpty : ∀ c ∈ rs, clauseEq c emptyClause = false := by
      intro c hc
      cases hq : clauseEq c emptyClause with
      | false => rfl
      | true => exact absurd ((clauseEq_empty_iff c).mp hq).1 (h1 c hc)
    obtain ⟨acc2, ha2, hgo⟩ :=
      roundGo_sat_cont fuel constants2 variables2 (pairList current) current acc rs hrs hnoEmpty
    obtain ⟨c, hc, hcm⟩ := hnew
    have hmem : clMem c acc2 = true :=
      roundAccum_of_rs fuel constants2 variables2 c (pairList current) acc acc2 rs hrs ha2 hc
    have hnsub : clSubset acc2 current = false := by
      cases hs : clSubset acc2 current with
      | false => rfl
      | true =>
        exfalso
        unfold clMem at hmem
        obtain ⟨e, he, hcee⟩ := List.any_eq_true.mp hmem
        unfold clSubset at hs
        rw [List.all_eq_true] at hs
        have hec := hs e he
        unfold clMem at hec
        obtain ⟨w, hw, hew⟩ := List.any_eq_true.mp hec
        have : clMem c current = true := by
          unfold clMem
          exact List.any_eq_true.mpr ⟨w, hw, clauseEq_trans hcee hew⟩
        rw [hcm] at this
        cases this
    rw [hnsub] at hgo
    simp at hgo
    refine ⟨acc2, ha2, hgo, fun r => ?_⟩
    simp [resolverLoop, resolverRound, hgo]

/-- C3, witness: on the one-clause set `{Q()}` there are no clause pairs,
the round produces no resolvents, the subset test succeeds and the engine
answers "yes". -/
theorem resolver_round_spec_witness :
    resolverRound 5 [] [] [qClause] [] = .sat
      ∧ resolverLoop 1 5 [] [] [qClause] [] = .satYes := by
  have h := resolver_round_spec 5 [] [] [qClause] [] [] (by rfl)
    (by intro c hc hce; simp [qClause] at hc; subst hc; simp [qClause] at hce)
    (by rfl)
  have h2 := h.2.1 (by intro c hc; simp at hc) (by intro c hc; simp at hc)
  exact ⟨h2.1, h2.2 0⟩

end Res
